import Mathlib

/-
Verification of the distance/assignment engine in src/cython/distances_core.c.

The C code is shallowly embedded: C doubles become real numbers, C arrays
become Lean lists indexed with getD (an out-of-range read yields the
default, an out-of-range set is a no-op), the libm atan2 becomes the
principal argument of a complex number, and every loop becomes a fold over
the list of its index values, in the source's iteration order.  The
growable push buffers (frontiers, edge lists) become plain lists with
append, since capacity doubling does not change their contents.  The
wall_time / fprintf instrumentation has no effect on the outputs and is
omitted.  All definitions are given first, followed by the theorems.
-/

namespace DistancesCore

/-! ### The geodesic metric

`atan2 y x` is the two-argument arctangent of libm, embedded as the
principal argument of the complex number with real part `x` and
imaginary part `y`. -/

noncomputable def atan2 (y x : ℝ) : ℝ := Complex.arg ⟨x, y⟩

/-- Line-by-line embedding of `dist_vincenty_helper` (lines 136-146). -/
noncomputable def dist_vincenty_helper (ra1 cos_dec1 sin_dec1 ra2 cos_dec2 sin_dec2 : ℝ) : ℝ :=
  let dra := ra2 - ra1
  let cos_dra := Real.cos dra
  let sin_dra := Real.sin dra
  let y1 := cos_dec1 * sin_dra
  let y2 := cos_dec2 * sin_dec1 - sin_dec2 * cos_dec1 * cos_dra
  let y := Real.sqrt (y1 * y1 + y2 * y2)
  let x := sin_dec2 * sin_dec1 + cos_dec2 * cos_dec1 * cos_dra
  atan2 y x

/-- The Vincenty expression inlined in the loop bodies of
`distance_from_points` (lines 69-78) and `distance_from_points_separable`
(lines 113-122), as a function of the pixel's and the point's (dec, ra).
The C precomputes the cos/sin of both declinations outside the inner
loops; inlining them here is extensionally the same computation. -/
noncomputable def vincenty_dp (pix_dec pix_ra edge_dec edge_ra : ℝ) : ℝ :=
  let dra := pix_ra - edge_ra
  let cos_dra := Real.cos dra
  let sin_dra := Real.sin dra
  let y1 := Real.cos edge_dec * sin_dra
  let y2 := Real.cos pix_dec * Real.sin edge_dec - Real.sin pix_dec * Real.cos edge_dec * cos_dra
  let y := Real.sqrt (y1 * y1 + y2 * y2)
  let x := Real.sin pix_dec * Real.sin edge_dec + Real.cos pix_dec * Real.cos edge_dec * cos_dra
  atan2 y x

/-! ### Brute-force assignment: `distance_from_points` (lines 50-87)

State of the run: the `dists` buffer and the optional `areas` buffer
(`areas` is a nullable pointer in C, hence an `Option` here).  The inner
loop over reference points is `dpPix`; the outer loop over pixels is
`distance_from_points`. -/

/-- Body of the outer pixel loop of `distance_from_points` (lines 63-84):
scan all `npoint` reference points, keeping the running minimum in
`dists[i]` (the write is unconditional at `j = 0`). -/
noncomputable def dpPix (npix npoint : ℕ) (posmap points : List ℝ)
    (st : List ℝ × Option (List ℤ)) (i : ℕ) : List ℝ × Option (List ℤ) :=
  let pix_dec := posmap.getD i 0
  let pix_ra := posmap.getD (i + npix) 0
  (List.range npoint).foldl
    (fun st j =>
      let d := vincenty_dp pix_dec pix_ra (points.getD j 0) (points.getD (j + npoint) 0)
      if j = 0 ∨ d < st.1.getD i 0 then
        (st.1.set i d, st.2.map fun l => l.set i (j : ℤ))
      else st)
    st

/-- Embedding of `distance_from_points` (lines 50-87). -/
noncomputable def distance_from_points (npix : ℕ) (posmap : List ℝ) (npoint : ℕ)
    (points : List ℝ) (dists : List ℝ) (areas : Option (List ℤ)) :
    List ℝ × Option (List ℤ) :=
  (List.range npix).foldl (dpPix npix npoint posmap points) (dists, areas)

/-- The distance the brute-force scan computes between pixel `i` and
point `j`: pixel dec/ra are `posmap[i]` and `posmap[i+npix]`, point
dec/ra are `points[j]` and `points[j+npoint]`. -/
noncomputable def vd (npix npoint : ℕ) (posmap points : List ℝ) (i j : ℕ) : ℝ :=
  vincenty_dp (posmap.getD i 0) (posmap.getD (i + npix) 0)
    (points.getD j 0) (points.getD (j + npoint) 0)

/-- The inner-loop body of `distance_from_points` (lines 68-83) with the
pixel's position reads folded into `vd`; `dpPix npix npoint posmap points
st i` definitionally equals `(List.range npoint).foldl (dpStep npix
npoint posmap points i) st`. -/
noncomputable def dpStep (npix npoint : ℕ) (posmap points : List ℝ) (i : ℕ)
    (st : List ℝ × Option (List ℤ)) (j : ℕ) : List ℝ × Option (List ℤ) :=
  let d := vd npix npoint posmap points i j
  if j = 0 ∨ d < st.1.getD i 0 then
    (st.1.set i d, st.2.map fun l => l.set i (j : ℤ))
  else st

/-- Embedding of `distance_from_points_separable` (lines 89-134): outer
loop over rows, middle loop over columns, inner loop over points, with
the flat index `i = y*nx + x`. -/
noncomputable def distance_from_points_separable (ny nx : ℕ) (ypos xpos : List ℝ)
    (npoint : ℕ) (points : List ℝ) (dists : List ℝ) (areas : Option (List ℤ)) :
    List ℝ × Option (List ℤ) :=
  (List.range ny).foldl
    (fun st y =>
      let pix_dec := ypos.getD y 0
      (List.range nx).foldl
        (fun st x =>
          let pix_ra := xpos.getD x 0
          let i := y * nx + x
          (List.range npoint).foldl
            (fun st j =>
              let d := vincenty_dp pix_dec pix_ra (points.getD j 0) (points.getD (j + npoint) 0)
              if j = 0 ∨ d < st.1.getD i 0 then
                (st.1.set i d, st.2.map fun l => l.set i (j : ℤ))
              else st)
            st)
        st)
    (dists, areas)

/-- Modelled from the claim's words (refinement spec for C5, not from the
source): the full position map whose latitude plane has
`posmap[y*nx+x] = ypos[y]` and whose longitude plane has
`posmap[ny*nx + y*nx+x] = xpos[x]`. -/
def posmapOf (ny nx : ℕ) (ypos xpos : List ℝ) : List ℝ :=
  ((List.range (ny * nx)).map fun i => ypos.getD (i / nx) 0)
    ++ ((List.range (ny * nx)).map fun i => xpos.getD (i % nx) 0)

/-! ### Boundary extraction: `find_edges` (lines 243-265)

The four border scans (top row, bottom row, left column, right column,
in that order) and then the interior scan, pushing the flat indices of
zero pixels.  Note the C's bottom-row loop bound really is `nx*nx`
(line 253). -/

def find_edges (ny nx : ℕ) (mask : List ℕ) : List ℕ :=
  ((List.range nx).filter fun i => mask.getD i 0 == 0)
    ++ ((List.range' ((ny - 1) * nx) (nx * nx - (ny - 1) * nx)).filter
        fun i => mask.getD i 0 == 0)
    ++ ((List.range' nx (ny - 1) nx).filter fun i => mask.getD i 0 == 0)
    ++ ((List.range' (nx - 1) ny nx).filter fun i => mask.getD i 0 == 0)
    ++ ((List.range' 1 (ny - 2)).flatMap fun y =>
        (List.range' 1 (nx - 2)).filterMap fun x =>
          let i := y * nx + x
          if mask.getD i 0 = 0 ∧ (mask.getD (i - 1) 0 ≠ 0 ∨ mask.getD (i + 1) 0 ≠ 0 ∨
              mask.getD (i - nx) 0 ≠ 0 ∨ mask.getD (i + nx) 0 ≠ 0) then
            some i
          else none)

/-- Embedding of `distance_transform` (lines 36-48): extract the edges of
the zero regions, use them as reference points for the brute-force scan,
then zero the distances of the zero-mask pixels. -/
noncomputable def distance_transform (ny nx : ℕ) (mask : List ℕ) (posmap : List ℝ)
    (dists : List ℝ) : List ℝ :=
  let edges := find_edges ny nx mask
  let n := edges.length
  let points := (edges.map fun e => posmap.getD e 0)
    ++ (edges.map fun e => posmap.getD (e + ny * nx) 0)
  let r := distance_from_points (ny * nx) posmap n points dists none
  (List.range (ny * nx)).foldl (fun d i => if mask.getD i 0 = 0 then d.set i 0 else d) r.1

/-! ### Wavefront propagation: `distance_from_points_treerings_separable`
(lines 148-236)

The inputs of one invocation, and its mutable state: the `dists` and
`domains` grids and the two frontier buffers.  The C stores a frontier
as two parallel int arrays `*_y`, `*_x`; here it is one list of (y, x)
pairs, pushed at the back. -/

structure TParams where
  ny : ℕ
  nx : ℕ
  npoint : ℕ
  ypos : List ℝ
  xpos : List ℝ
  point_pos : List ℝ
  point_y : List ℤ
  point_x : List ℤ

structure TState where
  dists : List ℝ
  domains : List ℤ
  curr : List (ℤ × ℤ)
  next : List (ℤ × ℤ)

/-- Flat index `y*nx + x`, as used by the `update` macro (line 150) and
by `pix = (inum)y*nx+x` (line 208). -/
def flatIdx (nx : ℕ) (y x : ℤ) : ℤ := y * nx + x

/-- The comparison index `pix2 = y2*ny+x2` of line 215 — note the
multiplier is `ny`, not `nx`. -/
def pix2_of (ny : ℕ) (y2 x2 : ℤ) : ℤ := y2 * ny + x2

/-- The edge wrap of lines 213-214, applied to one coordinate. -/
def wrap (v : ℤ) (n : ℕ) : ℤ :=
  if v < 0 then v + n else if (n : ℤ) ≤ v then v - n else v

/-- Neighbor offsets `yoffs` (line 192). -/
def yoffsL : List ℤ := [0, 0, -1, 1]

/-- Neighbor offsets `xoffs` (line 193). -/
def xoffsL : List ℤ := [-1, 1, 0, 0]

/-- The `calc_dist` macro (line 149): distance from point `ipoint`'s
position to the pixel at row `y`, column `x`.  The C precomputes
`point_cos_dec`, `point_sin_dec`, `pix_cos_dec`, `pix_sin_dec`;
inlining the cos/sin is extensionally the same computation. -/
noncomputable def calc_dist (P : TParams) (ipoint : ℤ) (y x : ℤ) : ℝ :=
  dist_vincenty_helper (P.point_pos.getD (ipoint.toNat + P.npoint) 0)
    (Real.cos (P.point_pos.getD ipoint.toNat 0)) (Real.sin (P.point_pos.getD ipoint.toNat 0))
    (P.xpos.getD x.toNat 0)
    (Real.cos (P.ypos.getD y.toNat 0)) (Real.sin (P.ypos.getD y.toNat 0))

/-- The `update` macro (line 150): write distance and domain at
`y*nx + x` and push `(y, x)` onto the next frontier. -/
def updateT (P : TParams) (st : TState) (y x : ℤ) (dist : ℝ) (i : ℤ) : TState :=
  { dists := st.dists.set (flatIdx P.nx y x).toNat dist
    domains := st.domains.set (flatIdx P.nx y x).toNat i
    curr := st.curr
    next := st.next ++ [(y, x)] }

/-- The sentinel fill of lines 161-164. -/
noncomputable def initState (P : TParams) : TState :=
  { dists := List.replicate (P.ny * P.nx) (1e300 : ℝ)
    domains := List.replicate (P.ny * P.nx) (-1 : ℤ)
    curr := []
    next := [] }

/-- One iteration of the seeding loop (lines 196-199). -/
noncomputable def seedStep (P : TParams) (st : TState) (i : ℕ) : TState :=
  updateT P st (P.point_y.getD i 0) (P.point_x.getD i 0)
    (calc_dist P (i : ℤ) (P.point_y.getD i 0) (P.point_x.getD i 0)) (i : ℤ)

/-- The state after the first `k` iterations of the seeding loop. -/
noncomputable def seedState (P : TParams) (k : ℕ) : TState :=
  (List.range k).foldl (seedStep P) (initState P)

/-- The `swap_buffers` macro (line 151): the next frontier becomes the
current one and the next-frontier count is reset to zero. -/
def swapT (st : TState) : TState :=
  { dists := st.dists, domains := st.domains, curr := st.next, next := [] }

/-- Processing of one current-frontier pixel (lines 206-222): read its
domain, then relax its four wrapped neighbors in offset order, comparing
each candidate distance against `dists[pix2]` with `pix2 = y2*ny+x2`. -/
noncomputable def visitPix (P : TParams) (st : TState) (p : ℤ × ℤ) : TState :=
  let y := p.1
  let x := p.2
  let pix := (flatIdx P.nx y x).toNat
  let ipoint := st.domains.getD pix (-1)
  (List.range 4).foldl
    (fun st oi =>
      let y2 := wrap (y + yoffsL.getD oi 0) P.ny
      let x2 := wrap (x + xoffsL.getD oi 0) P.nx
      let cand := calc_dist P ipoint y2 x2
      if cand < st.dists.getD (pix2_of P.ny y2 x2).toNat 0 then
        updateT P st y2 x2 cand ipoint
      else st)
    st

/-- One pass of the while loop (lines 203-225): visit every pixel of the
current frontier, then swap the frontier buffers. -/
noncomputable def passT (P : TParams) (st : TState) : TState :=
  swapT (st.curr.foldl (visitPix P) st)

/-- The state at the `k`-th check of the while condition: seeding, the
first buffer swap (line 200), then `k` passes. -/
noncomputable def runState (P : TParams) : ℕ → TState
  | 0 => swapT (seedState P P.npoint)
  | k + 1 => passT P (runState P k)

/-- The flat index of point `i`'s seed pixel. -/
def seedIdx (P : TParams) (i : ℕ) : ℕ :=
  (flatIdx P.nx (P.point_y.getD i 0) (P.point_x.getD i 0)).toNat

/-- A frontier entry lies inside the grid. -/
def inRangeT (P : TParams) (p : ℤ × ℤ) : Prop :=
  0 ≤ p.1 ∧ p.1 < P.ny ∧ 0 ≤ p.2 ∧ p.2 < P.nx

/-- Every recorded frontier pixel is in range and has an assigned domain. -/
def frontierOk (P : TParams) (st : TState) (l : List (ℤ × ℤ)) : Prop :=
  ∀ p ∈ l, inRangeT P p ∧ st.domains.getD (flatIdx P.nx p.1 p.2).toNat (-1) ≠ -1

/-- The dists/domains coupling invariant: the two grids have the full
size, a pixel holds the sentinel distance exactly when its domain is the
sentinel `-1`, every assigned domain is a valid point index, and both
frontier buffers only hold assigned in-range pixels. -/
def coupled (P : TParams) (st : TState) : Prop :=
  st.dists.length = P.ny * P.nx ∧ st.domains.length = P.ny * P.nx ∧
  (∀ i < P.ny * P.nx,
    (st.domains.getD i (-1) = -1 ↔ st.dists.getD i 0 = 1e300) ∧
    (st.domains.getD i (-1) ≠ -1 →
      0 ≤ st.domains.getD i (-1) ∧ st.domains.getD i (-1) < (P.npoint : ℤ))) ∧
  frontierOk P st st.curr ∧ frontierOk P st st.next

/-! ### Concrete instances used by counterexamples and witnesses -/

/-- Two reference points seeded at the same pixel of a 1x1 grid; the
first point sits on the pixel, the second is antipodal in longitude. -/
noncomputable def exP3 : TParams :=
  { ny := 1, nx := 1, npoint := 2, ypos := [0], xpos := [0],
    point_pos := [0, 0, 0, Real.pi], point_y := [0, 0], point_x := [0, 0] }

/-- A 3x2 grid with one point seeded at (0,0). -/
def exP6 : TParams :=
  { ny := 3, nx := 2, npoint := 1, ypos := [0, 0, 0], xpos := [0, 0],
    point_pos := [0, 0], point_y := [0], point_x := [0] }

/-- A 5x4 grid with one point seeded at (4,0). -/
def exP8 : TParams :=
  { ny := 5, nx := 4, npoint := 1, ypos := [0, 0, 0, 0, 0], xpos := [0, 0, 0, 0],
    point_pos := [0, 0], point_y := [4], point_x := [0] }

/-- A 1x1 grid with one point seeded at (0,0), used by witnesses. -/
def exPW : TParams :=
  { ny := 1, nx := 1, npoint := 1, ypos := [0], xpos := [0],
    point_pos := [0, 0], point_y := [0], point_x := [0] }

/-! ## Theorems -/

/-! ### List access helpers -/

theorem getD_set_self {α : Type} (l : List α) (i : ℕ) (a d : α) (h : i < l.length) :
    (l.set i a).getD i d = a := by
  rw [List.getD_eq_getElem?_getD, List.getElem?_set_self (by simpa using h)]
  rfl

theorem getD_set_ne {α : Type} (l : List α) {i j : ℕ} (a d : α) (h : i ≠ j) :
    (l.set i a).getD j d = l.getD j d := by
  rw [List.getD_eq_getElem?_getD, List.getElem?_set_ne h, ← List.getD_eq_getElem?_getD]

theorem getD_replicate {α : Type} {n i : ℕ} (a d : α) (h : i < n) :
    (List.replicate n a).getD i d = a := by
  rw [List.getD_eq_getElem?_getD, List.getElem?_replicate, if_pos h]
  rfl

theorem foldl_preserve {σ α : Type} {Q : σ → Prop} {f : σ → α → σ} {l : List α} {s : σ}
    (hf : ∀ s a, a ∈ l → Q s → Q (f s a)) (hs : Q s) : Q (l.foldl f s) := by
  induction l generalizing s with
  | nil => exact hs
  | cons a t ih =>
      exact ih (fun s b hb => hf s b (List.mem_cons_of_mem a hb))
        (hf s a (List.mem_cons_self a t) hs)

theorem foldl_fixed {σ α : Type} {f : σ → α → σ} {l : List α} {s : σ}
    (hf : ∀ s a, a ∈ l → f s a = s) : l.foldl f s = s := by
  induction l generalizing s with
  | nil => rfl
  | cons a t ih =>
      rw [List.foldl_cons, hf s a (List.mem_cons_self a t)]
      exact ih fun s b hb => hf s b (List.mem_cons_of_mem a hb)

/-! ### Range and zero locus of the metric -/

theorem atan2_nonneg {y x : ℝ} (h : 0 ≤ y) : 0 ≤ atan2 y x :=
  Complex.arg_nonneg_iff.mpr h

theorem atan2_le_pi (y x : ℝ) : atan2 y x ≤ Real.pi :=
  Complex.arg_le_pi _

theorem dist_vincenty_helper_nonneg (ra1 c1 s1 ra2 c2 s2 : ℝ) :
    0 ≤ dist_vincenty_helper ra1 c1 s1 ra2 c2 s2 :=
  atan2_nonneg (Real.sqrt_nonneg _)

theorem dist_vincenty_helper_le_pi (ra1 c1 s1 ra2 c2 s2 : ℝ) :
    dist_vincenty_helper ra1 c1 s1 ra2 c2 s2 ≤ Real.pi :=
  atan2_le_pi _ _

theorem vincenty_dp_nonneg (pd pr ed er : ℝ) : 0 ≤ vincenty_dp pd pr ed er :=
  atan2_nonneg (Real.sqrt_nonneg _)

theorem vincenty_dp_le_pi (pd pr ed er : ℝ) : vincenty_dp pd pr ed er ≤ Real.pi :=
  atan2_le_pi _ _

theorem pi_lt_sentinel : Real.pi < 1e300 :=
  lt_trans Real.pi_lt_d2 (by norm_num)

theorem atan2_eq_zero_iff {y x : ℝ} : atan2 y x = 0 ↔ 0 ≤ x ∧ y = 0 :=
  Complex.arg_eq_zero_iff

/-- Unfolding of `dist_vincenty_helper` with its locals substituted. -/
theorem dist_vincenty_helper_eq (ra1 c1 s1 ra2 c2 s2 : ℝ) :
    dist_vincenty_helper ra1 c1 s1 ra2 c2 s2 =
      atan2 (Real.sqrt ((c1 * Real.sin (ra2 - ra1)) * (c1 * Real.sin (ra2 - ra1)) +
          (c2 * s1 - s2 * c1 * Real.cos (ra2 - ra1)) *
            (c2 * s1 - s2 * c1 * Real.cos (ra2 - ra1))))
        (s2 * s1 + c2 * c1 * Real.cos (ra2 - ra1)) := rfl

/-- The metric vanishes precisely when the two points have the same unit
vector on the sphere: equal z components, and equal projections onto the
equatorial plane. -/
theorem dist_vincenty_helper_eq_zero_iff (ra1 ra2 t1 t2 : ℝ) :
    dist_vincenty_helper ra1 (Real.cos t1) (Real.sin t1) ra2 (Real.cos t2) (Real.sin t2) = 0 ↔
      (Real.sin t1 = Real.sin t2 ∧
        Real.cos t1 * Real.cos ra1 = Real.cos t2 * Real.cos ra2 ∧
        Real.cos t1 * Real.sin ra1 = Real.cos t2 * Real.sin ra2) := by
  have hp1 := Real.sin_sq_add_cos_sq t1
  have hp2 := Real.sin_sq_add_cos_sq t2
  have hr1 := Real.sin_sq_add_cos_sq ra1
  have hr2 := Real.sin_sq_add_cos_sq ra2
  have ha := Real.sin_sq_add_cos_sq (ra2 - ra1)
  have hC := Real.cos_sub ra2 ra1
  set c1 := Real.cos t1
  set s1 := Real.sin t1
  set c2 := Real.cos t2
  set s2 := Real.sin t2
  set C := Real.cos (ra2 - ra1)
  set S := Real.sin (ra2 - ra1)
  have hy1 : (c1 * S) * (c1 * S) + (c2 * s1 - s2 * c1 * C) * (c2 * s1 - s2 * c1 * C) =
      c1 ^ 2 * S ^ 2 + (c2 * s1 - s2 * c1 * C) ^ 2 := by ring
  have hkey : (s2 * s1 + c2 * c1 * C) ^ 2 +
      (c1 ^ 2 * S ^ 2 + (c2 * s1 - s2 * c1 * C) ^ 2) = 1 := by
    linear_combination (s1 ^ 2 + c1 ^ 2 * C ^ 2) * hp2 + c1 ^ 2 * ha + hp1
  have hdiff : (s1 - s2) ^ 2 + (c1 * Real.cos ra1 - c2 * Real.cos ra2) ^ 2 +
      (c1 * Real.sin ra1 - c2 * Real.sin ra2) ^ 2 =
      2 - 2 * (s2 * s1 + c2 * c1 * C) := by
    linear_combination c1 ^ 2 * hr1 + c2 ^ 2 * hr2 + hp1 + hp2 + 2 * c1 * c2 * hC
  rw [dist_vincenty_helper_eq, atan2_eq_zero_iff, Real.sqrt_eq_zero', hy1]
  constructor
  · rintro ⟨hx, hy⟩
    have hsq : c1 ^ 2 * S ^ 2 + (c2 * s1 - s2 * c1 * C) ^ 2 = 0 :=
      le_antisymm hy (by positivity)
    have hX2 : (s2 * s1 + c2 * c1 * C) ^ 2 = 1 := by linarith
    have hle : s2 * s1 + c2 * c1 * C ≤ 1 := by
      nlinarith [sq_nonneg (s2 * s1 + c2 * c1 * C - 1)]
    have hx1 : s2 * s1 + c2 * c1 * C = 1 := by
      refine le_antisymm hle ?_
      nlinarith [hle, hx]
    have hz : (s1 - s2) ^ 2 + (c1 * Real.cos ra1 - c2 * Real.cos ra2) ^ 2 +
        (c1 * Real.sin ra1 - c2 * Real.sin ra2) ^ 2 = 0 := by
      rw [hdiff, hx1]; ring
    have n1 := sq_nonneg (s1 - s2)
    have n2 := sq_nonneg (c1 * Real.cos ra1 - c2 * Real.cos ra2)
    have n3 := sq_nonneg (c1 * Real.sin ra1 - c2 * Real.sin ra2)
    refine ⟨sub_eq_zero.mp (sq_eq_zero_iff.mp (by linarith)),
      sub_eq_zero.mp (sq_eq_zero_iff.mp (by linarith)),
      sub_eq_zero.mp (sq_eq_zero_iff.mp (by linarith))⟩
  · rintro ⟨h1, h2, h3⟩
    have hz : (s1 - s2) ^ 2 + (c1 * Real.cos ra1 - c2 * Real.cos ra2) ^ 2 +
        (c1 * Real.sin ra1 - c2 * Real.sin ra2) ^ 2 = 0 := by
      rw [h1, h2, h3]; ring
    have hx1 : s2 * s1 + c2 * c1 * C = 1 := by linarith [hdiff]
    rw [hx1] at hkey
    norm_num at hkey
    exact ⟨by linarith, by linarith⟩

/-- Claim C7, as stated: refuted.  Both points sit at the north pole
(`dec = π/2`) with longitudes `0` and `π`; the metric returns exactly `0`
although the longitudes are not equal modulo `2π`. -/
theorem c7_counterexample :
    dist_vincenty_helper 0 (Real.cos (Real.pi / 2)) (Real.sin (Real.pi / 2)) Real.pi
        (Real.cos (Real.pi / 2)) (Real.sin (Real.pi / 2)) = 0 ∧
      ¬ ∃ k : ℤ, Real.pi - 0 = 2 * Real.pi * k := by
  constructor
  · rw [dist_vincenty_helper_eq_zero_iff]
    refine ⟨rfl, ?_, ?_⟩ <;> rw [Real.cos_pi_div_two, zero_mul, zero_mul]
  · rintro ⟨k, hk⟩
    rw [sub_zero] at hk
    have h2 : Real.pi * (2 * (k : ℝ) - 1) = 0 := by linear_combination -hk
    have h3 : (2 * (k : ℝ) - 1) = 0 :=
      (mul_eq_zero.mp h2).resolve_left Real.pi_ne_zero
    have h4 : (2 * k : ℤ) = 1 := by
      have : (2 * (k : ℝ)) = 1 := by linarith
      exact_mod_cast this
    omega

/-- Claim C7 (amended): for all real longitudes and latitudes the metric
lies in `[0, π]`, and it is `0` exactly when the two points coincide as
unit vectors on the sphere (so also at a shared pole with different
longitudes, which the original mod-2π/equal-latitude phrasing excludes). -/
theorem c7_metric_range_and_zero (ra1 ra2 t1 t2 : ℝ) :
    0 ≤ dist_vincenty_helper ra1 (Real.cos t1) (Real.sin t1) ra2 (Real.cos t2) (Real.sin t2) ∧
    dist_vincenty_helper ra1 (Real.cos t1) (Real.sin t1) ra2 (Real.cos t2) (Real.sin t2) ≤
      Real.pi ∧
    (dist_vincenty_helper ra1 (Real.cos t1) (Real.sin t1) ra2 (Real.cos t2) (Real.sin t2) = 0 ↔
      (Real.sin t1 = Real.sin t2 ∧
        Real.cos t1 * Real.cos ra1 = Real.cos t2 * Real.cos ra2 ∧
        Real.cos t1 * Real.sin ra1 = Real.cos t2 * Real.sin ra2)) :=
  ⟨dist_vincenty_helper_nonneg _ _ _ _ _ _, dist_vincenty_helper_le_pi _ _ _ _ _ _,
    dist_vincenty_helper_eq_zero_iff ra1 ra2 t1 t2⟩

/-! ### Brute-force assignment -/

theorem dpPix_zero (npix : ℕ) (posmap points : List ℝ)
    (st : List ℝ × Option (List ℤ)) (i : ℕ) :
    dpPix npix 0 posmap points st i = st := rfl

theorem distance_from_points_no_points (npix : ℕ) (posmap points dists : List ℝ)
    (areas : Option (List ℤ)) :
    distance_from_points npix posmap 0 points dists areas = (dists, areas) :=
  foldl_fixed fun s a _ => dpPix_zero npix posmap points s a

/-- Claim C10: calling `distance_from_points` with `npoint = 0` writes
nothing; the inner loop body never runs, so `dists` and `areas` are
returned exactly as passed in, for every `npix` and position map. -/
theorem c10_no_points_writes_nothing (npix : ℕ) (posmap points dists : List ℝ)
    (areas : Option (List ℤ)) :
    distance_from_points npix posmap 0 points dists areas = (dists, areas) :=
  distance_from_points_no_points npix posmap points dists areas

theorem dpPix_eq_foldl (npix npoint : ℕ) (posmap points : List ℝ)
    (st : List ℝ × Option (List ℤ)) (i : ℕ) :
    dpPix npix npoint posmap points st i =
      (List.range npoint).foldl (dpStep npix npoint posmap points i) st := rfl

/-- The inner point scan keeps the first-encountered running minimum:
after scanning points `0..n-1` (with `n ≥ 1`), `dists[i]` holds
`vd i j0` for the least argmin `j0`, `areas[i]` (when present) holds
`j0`, and nothing else changed. -/
theorem dpStep_fold_spec (npix npoint : ℕ) (posmap points : List ℝ) (i : ℕ)
    (st : List ℝ × Option (List ℤ)) (hi : i < st.1.length) :
    ∀ n, 1 ≤ n →
      ∃ j0 < n,
        (List.range n).foldl (dpStep npix npoint posmap points i) st =
          (st.1.set i (vd npix npoint posmap points i j0),
            st.2.map fun l => l.set i (j0 : ℤ)) ∧
        (∀ j < n, vd npix npoint posmap points i j0 ≤ vd npix npoint posmap points i j) ∧
        ∀ j < j0, vd npix npoint posmap points i j0 < vd npix npoint posmap points i j := by
  intro n hn
  induction n with
  | zero => omega
  | succ n ih =>
      rcases Nat.lt_or_ge 1 (n + 1) with hgt | hle
      · -- n ≥ 1: use the inductive hypothesis for the first n points
        have hn1 : 1 ≤ n := by omega
        obtain ⟨j0, hj0, heq, hmin, hstrict⟩ := ih hn1
        rw [List.range_succ, List.foldl_append, heq]
        have hread : ((st.1.set i (vd npix npoint posmap points i j0)).getD i 0) =
            vd npix npoint posmap points i j0 := getD_set_self _ _ _ _ hi
        by_cases hlt :
            vd npix npoint posmap points i n < vd npix npoint posmap points i j0
        · refine ⟨n, Nat.lt_succ_self n, ?_, ?_, ?_⟩
          · show dpStep npix npoint posmap points i _ n = _
            rw [dpStep]
            dsimp only
            rw [if_pos (Or.inr (by rw [hread]; exact hlt))]
            rw [List.set_set, Option.map_map]
            refine congrArg (fun o => (st.1.set i (vd npix npoint posmap points i n), o)) ?_
            refine congrArg (fun f => Option.map f st.2) ?_
            funext l
            simp [List.set_set]
          · intro j hj
            rcases Nat.lt_or_ge j n with h | h
            · exact le_of_lt (lt_of_lt_of_le hlt (hmin j h))
            · have : j = n := by omega
              subst this
              exact le_refl _
          · intro j hj
            exact lt_of_lt_of_le hlt (hmin j hj)
        · refine ⟨j0, lt_trans hj0 (Nat.lt_succ_self n), ?_, ?_, hstrict⟩
          · show dpStep npix npoint posmap points i _ n = _
            rw [dpStep]
            dsimp only
            rw [if_neg]
            push_neg
            refine ⟨by omega, ?_⟩
            rw [hread]
            exact not_lt.mp hlt
          · intro j hj
            rcases Nat.lt_or_ge j n with h | h
            · exact hmin j h
            · have : j = n := by omega
              subst this
              exact not_lt.mp hlt
      · -- n + 1 = 1: the scan of point 0 writes unconditionally
        have h0 : n = 0 := by omega
        subst h0
        refine ⟨0, Nat.lt_succ_self 0, ?_, ?_, ?_⟩
        · show (List.range 1).foldl (dpStep npix npoint posmap points i) st = _
          rw [show List.range 1 = [0] from rfl, List.foldl_cons, List.foldl_nil, dpStep]
          rw [if_pos (Or.inl rfl)]
        · intro j hj
          have : j = 0 := by omega
          subst this
          exact le_refl _
        · intro j hj
          omega

/-- Claim C1: for `npoint ≥ 1` and correctly sized output buffers,
`distance_from_points` stores in `dists[i]` the minimum over all points
`j` of the Vincenty distance `vd i j`, and in `areas[i]` (when the areas
buffer is passed) the smallest point index attaining that minimum. -/
theorem c1_distance_from_points_min (npix npoint : ℕ) (posmap points dists : List ℝ)
    (areas : Option (List ℤ)) (hnp : 1 ≤ npoint) (hd : dists.length = npix)
    (ha : ∀ l, areas = some l → l.length = npix) :
    ∀ i < npix,
      ∃ j0 < npoint,
        (distance_from_points npix posmap npoint points dists areas).1.getD i 0 =
          vd npix npoint posmap points i j0 ∧
        (∀ j < npoint, vd npix npoint posmap points i j0 ≤ vd npix npoint posmap points i j) ∧
        (∀ j < j0, vd npix npoint posmap points i j0 < vd npix npoint posmap points i j) ∧
        ∀ la, (distance_from_points npix posmap npoint points dists areas).2 = some la →
          la.getD i (-1) = (j0 : ℤ) := by
  have main : ∀ m, m ≤ npix →
      ((List.range m).foldl (dpPix npix npoint posmap points) (dists, areas)).1.length = npix ∧
      (∀ la, ((List.range m).foldl (dpPix npix npoint posmap points) (dists, areas)).2 =
        some la → la.length = npix) ∧
      ∀ i < m,
        ∃ j0 < npoint,
          ((List.range m).foldl (dpPix npix npoint posmap points) (dists, areas)).1.getD i 0 =
            vd npix npoint posmap points i j0 ∧
          (∀ j < npoint, vd npix npoint posmap points i j0 ≤ vd npix npoint posmap points i j) ∧
          (∀ j < j0, vd npix npoint posmap points i j0 < vd npix npoint posmap points i j) ∧
          ∀ la, ((List.range m).foldl (dpPix npix npoint posmap points) (dists, areas)).2 =
            some la → la.getD i (-1) = (j0 : ℤ) := by
    intro m
    induction m with
    | zero =>
        intro _
        exact ⟨hd, fun la hla => ha la (by simpa using hla), fun i hi => absurd hi (by omega)⟩
    | succ m ih =>
        intro hm
        obtain ⟨hlen, hal, hprev⟩ := ih (by omega)
        set Sm := (List.range m).foldl (dpPix npix npoint posmap points) (dists, areas) with hSm
        have him : m < Sm.1.length := by rw [hlen]; omega
        obtain ⟨j0, hj0, heq, hmin, hstrict⟩ :=
          dpStep_fold_spec npix npoint posmap points m Sm him npoint hnp
        have hstep : (List.range (m + 1)).foldl (dpPix npix npoint posmap points)
            (dists, areas) = (Sm.1.set m (vd npix npoint posmap points m j0),
              Sm.2.map fun l => l.set m (j0 : ℤ)) := by
          rw [List.range_succ, List.foldl_append, ← hSm]
          show (List.foldl (dpPix npix npoint posmap points) Sm [m]) = _
          rw [List.foldl_cons, List.foldl_nil, dpPix_eq_foldl, heq]
        rw [hstep]
        refine ⟨by simpa using hlen, ?_, ?_⟩
        · intro la hla
          obtain ⟨l, hl, hset⟩ := Option.map_eq_some'.mp hla
          rw [← hset]
          simpa using hal l hl
        · intro i hi
          rcases Nat.lt_or_ge i m with hlt | hge
          · obtain ⟨k0, hk0, hkeq, hkmin, hkstrict, hkarea⟩ := hprev i hlt
            refine ⟨k0, hk0, ?_, hkmin, hkstrict, ?_⟩
            · rw [getD_set_ne _ _ _ (by omega)]
              exact hkeq
            · intro la hla
              obtain ⟨l, hl, hset⟩ := Option.map_eq_some'.mp hla
              rw [← hset, getD_set_ne _ _ _ (by omega)]
              exact hkarea l hl
          · have : i = m := by omega
            subst this
            refine ⟨j0, hj0, ?_, hmin, hstrict, ?_⟩
            · exact getD_set_self _ _ _ _ him
            · intro la hla
              obtain ⟨l, hl, hset⟩ := Option.map_eq_some'.mp hla
              rw [← hset]
              refine getD_set_self _ _ _ _ ?_
              rw [hal l hl]
              omega
  intro i hi
  exact (main npix (le_refl npix)).2.2 i hi

/-- Witness for C1 at a concrete input: one pixel at the origin, one
point at the origin, `dists = [3]`, `areas = [5]`. -/
theorem c1_witness :
    (1 ≤ 1 ∧ ([(3 : ℝ)]).length = 1) ∧
      ∃ j0 < 1,
        (distance_from_points 1 [0, 0] 1 [0, 0] [3] (some [5])).1.getD 0 0 =
          vd 1 1 [0, 0] [0, 0] 0 j0 ∧
        (∀ j < 1, vd 1 1 [0, 0] [0, 0] 0 j0 ≤ vd 1 1 [0, 0] [0, 0] 0 j) ∧
        (∀ j < j0, vd 1 1 [0, 0] [0, 0] 0 j0 < vd 1 1 [0, 0] [0, 0] 0 j) ∧
        ∀ la, (distance_from_points 1 [0, 0] 1 [0, 0] [3] (some [5])).2 = some la →
          la.getD 0 (-1) = (j0 : ℤ) :=
  ⟨⟨le_refl 1, rfl⟩,
    c1_distance_from_points_min 1 1 [0, 0] [0, 0] [3] (some [5]) (le_refl 1) rfl
      (fun l hl => by cases hl; rfl) 0 (by omega)⟩

/-! ### Separable entry point refines the flat one -/

theorem getD_map_range {α : Type} (f : ℕ → α) (m k : ℕ) (d : α) (h : k < m) :
    ((List.range m).map f).getD k d = f k := by
  rw [List.getD_eq_getElem?_getD, List.getElem?_map, List.getElem?_range h]
  rfl

theorem posmapOf_getD_dec (ny nx : ℕ) (ypos xpos : List ℝ) (y x : ℕ)
    (hy : y < ny) (hx : x < nx) :
    (posmapOf ny nx ypos xpos).getD (y * nx + x) 0 = ypos.getD y 0 := by
  have hlt : y * nx + x < ny * nx := by
    calc y * nx + x < y * nx + nx := by omega
    _ = (y + 1) * nx := by ring
    _ ≤ ny * nx := Nat.mul_le_mul_right nx (by omega)
  rw [posmapOf, List.getD_append _ _ _ _ (by simpa using hlt), getD_map_range _ _ _ _ hlt]
  have : (y * nx + x) / nx = y := by
    rw [Nat.mul_comm y nx, Nat.mul_add_div (by omega), Nat.div_eq_of_lt hx]
    omega
  rw [this]


theorem posmapOf_getD_ra (ny nx : ℕ) (ypos xpos : List ℝ) (y x : ℕ)
    (hy : y < ny) (hx : x < nx) :
    (posmapOf ny nx ypos xpos).getD (y * nx + x + ny * nx) 0 = xpos.getD x 0 := by
  have hlt : y * nx + x < ny * nx := by
    calc y * nx + x < y * nx + nx := by omega
    _ = (y + 1) * nx := by ring
    _ ≤ ny * nx := Nat.mul_le_mul_right nx (by omega)
  rw [posmapOf, List.getD_append_right _ _ _ _ (by simp)]
  simp only [List.length_map, List.length_range, Nat.add_sub_cancel]
  rw [getD_map_range _ _ _ _ hlt]
  have : (y * nx + x) % nx = x := by
    rw [Nat.mul_comm y nx, Nat.mul_add_mod, Nat.mod_eq_of_lt hx]
  rw [this]

theorem foldl_ext_mem {σ α : Type} {f g : σ → α → σ} {l : List α}
    (h : ∀ s a, a ∈ l → f s a = g s a) (s : σ) : l.foldl f s = l.foldl g s := by
  induction l generalizing s with
  | nil => rfl
  | cons a t ih =>
      rw [List.foldl_cons, List.foldl_cons, h s a (List.mem_cons_self a t)]
      exact ih (fun s b hb => h s b (List.mem_cons_of_mem a hb)) _

/-- A fold over the flat pixel range `[0, ny*nx)` is a fold over rows of
folds over columns, with flat index `y*nx + x`. -/
theorem foldl_range_mul {σ : Type} (ny nx : ℕ) (f : σ → ℕ → σ) (g : σ → ℕ → ℕ → σ) (s : σ)
    (h : ∀ s y x, y < ny → x < nx → f s (y * nx + x) = g s y x) :
    (List.range (ny * nx)).foldl f s =
      (List.range ny).foldl (fun s y => (List.range nx).foldl (fun s x => g s y x) s) s := by
  induction ny generalizing s with
  | zero => simp
  | succ n ih =>
      rw [show (n + 1) * nx = n * nx + nx from by ring, List.range_add, List.foldl_append,
        List.range_succ, List.foldl_append]
      rw [ih _ fun s y x hy hx => h s y x (Nat.lt_succ_of_lt hy) hx]
      set S := (List.range n).foldl (fun s y => (List.range nx).foldl (fun s x => g s y x) s) s
      rw [List.foldl_map]
      show (List.range nx).foldl (fun s x => f s (n * nx + x)) S =
        List.foldl (fun s y => (List.range nx).foldl (fun s x => g s y x) s) S [n]
      rw [List.foldl_cons, List.foldl_nil]
      refine foldl_ext_mem (fun s x hx => ?_) S
      exact h s n x (Nat.lt_succ_self n) (List.mem_range.mp hx)

/-- Claim C5: `distance_from_points_separable` computes exactly what
`distance_from_points` computes on the position map assembled from the
axis arrays (`posmapOf`), for the same initial buffers — including the
optional areas buffer. -/
theorem c5_separable_refines_flat (ny nx npoint : ℕ) (ypos xpos points dists : List ℝ)
    (areas : Option (List ℤ)) :
    distance_from_points_separable ny nx ypos xpos npoint points dists areas =
      distance_from_points (ny * nx) (posmapOf ny nx ypos xpos) npoint points dists areas := by
  rw [distance_from_points, distance_from_points_separable]
  rw [foldl_range_mul ny nx _
    (fun st y x =>
      (List.range npoint).foldl
        (fun st j =>
          let d := vincenty_dp (ypos.getD y 0) (xpos.getD x 0) (points.getD j 0)
            (points.getD (j + npoint) 0)
          if j = 0 ∨ d < st.1.getD (y * nx + x) 0 then
            (st.1.set (y * nx + x) d, st.2.map fun l => l.set (y * nx + x) (j : ℤ))
          else st)
        st)
    (dists, areas) ?_]
  intro st y x hy hx
  rw [dpPix]
  rw [posmapOf_getD_dec ny nx ypos xpos y x hy hx, posmapOf_getD_ra ny nx ypos xpos y x hy hx]

/-- Witness for C5 at a concrete input: a 1x1 grid with one point. -/
theorem c5_witness :
    distance_from_points_separable 1 1 [0] [0] 1 [0, 0] [3] (some [5]) =
      distance_from_points (1 * 1) (posmapOf 1 1 [0] [0]) 1 [0, 0] [3] (some [5]) :=
  c5_separable_refines_flat 1 1 1 [0] [0] [0, 0] [3] (some [5])

/-! ### Boundary extraction and the distance transform -/

theorem flatMap_eq_nil_of {α β : Type} {f : α → List β} {l : List α}
    (h : ∀ a ∈ l, f a = []) : l.flatMap f = [] := by
  induction l with
  | nil => rfl
  | cons a t ih =>
      rw [List.flatMap_cons, h a (List.mem_cons_self a t),
        ih fun b hb => h b (List.mem_cons_of_mem a hb)]
      rfl

/-- Claim C2: code-bug evidence.  On a 4x3 all-zero mask the bottom-row
loop of `find_edges` runs from `(ny-1)*nx = 9` while `i < nx*nx = 9`,
i.e. not at all, so the zero-valued bottom-row pixel 10 = (3,1) is
missing from the output even though it lies on the outer border (and the
function's own comment promises it). -/
theorem c2_find_edges_bottom_row_missing :
    find_edges 4 3 (List.replicate 12 0) = [0, 1, 2, 3, 6, 9, 2, 5, 8, 11] ∧
      10 ∉ find_edges 4 3 (List.replicate 12 0) := by
  constructor
  · decide
  · decide

/-- Claim C4, as stated: refuted.  On a 1x1 all-ones mask
`distance_transform` writes nothing at all, so the distance grid keeps
whatever the caller passed in (here `[5]`) instead of becoming all zero. -/
theorem c4_counterexample :
    distance_transform 1 1 [1] [0, 0] [5] = [5] ∧ ([(5 : ℝ)]).getD 0 0 ≠ 0 := by
  constructor
  · have hedges : find_edges 1 1 [1] = [] := by decide
    rw [distance_transform, hedges]
    simp only [List.map_nil, List.nil_append, List.length_nil,
      distance_from_points_no_points]
    rw [show List.range (1 * 1) = [0] from rfl, List.foldl_cons, List.foldl_nil]
    norm_num
  · norm_num

/-- Claim C4 (amended): for `1 ≤ nx ≤ ny` (so that the buggy bottom-row
bound `nx*nx` of `find_edges` stays inside the mask, see C2),
`find_edges` on the all-ones mask returns the empty sequence, and
`distance_transform` on that mask returns the caller's `dists` buffer
unchanged — it is all zero only if it was passed in all zero, not
unconditionally as the claim states. -/
theorem c4_all_ones_mask (ny nx : ℕ) (hnx : 1 ≤ nx) (hxy : nx ≤ ny) :
    find_edges ny nx (List.replicate (ny * nx) 1) = [] ∧
      ∀ posmap dists,
        distance_transform ny nx (List.replicate (ny * nx) 1) posmap dists = dists := by
  have hny : 1 ≤ ny := le_trans hnx hxy
  have hmask : ∀ i, i < ny * nx → (List.replicate (ny * nx) (1 : ℕ)).getD i 0 = 1 :=
    fun i hi => getD_replicate 1 0 hi
  have hfalse : ∀ i, i < ny * nx →
      (((List.replicate (ny * nx) (1 : ℕ)).getD i 0 == 0) = false) := by
    intro i hi
    rw [hmask i hi]
    rfl
  have hedges : find_edges ny nx (List.replicate (ny * nx) 1) = [] := by
    rw [find_edges]
    rw [List.filter_eq_nil.mpr ?_, List.filter_eq_nil.mpr ?_, List.filter_eq_nil.mpr ?_,
      List.filter_eq_nil.mpr ?_, flatMap_eq_nil_of ?_]
    · rfl
    · -- interior scan: the mask test fails everywhere
      intro y hy
      refine List.filterMap_eq_nil.mpr fun x hx => ?_
      obtain ⟨ky, hky, hyv⟩ := List.mem_range'.mp hy
      obtain ⟨kx, hkx, hxv⟩ := List.mem_range'.mp hx
      have hyb : y < ny := by omega
      have hxb : x < nx := by omega
      have hib : y * nx + x < ny * nx := by
        calc y * nx + x < y * nx + nx := by omega
        _ = (y + 1) * nx := by ring
        _ ≤ ny * nx := Nat.mul_le_mul_right nx (by omega)
      rw [if_neg]
      intro hcond
      rw [hmask _ hib] at hcond
      exact absurd hcond.1 (by omega)
    · -- right column: i = nx-1 + nx*k with k < ny
      intro i hi
      obtain ⟨k, hk, hv⟩ := List.mem_range'.mp hi
      have hms : nx * (k + 1) = nx * k + nx := Nat.mul_succ nx k
      have h2 : nx * (k + 1) ≤ nx * ny := Nat.mul_le_mul_left nx (by omega)
      have h3 : nx * ny = ny * nx := Nat.mul_comm nx ny
      have : i < ny * nx := by omega
      rw [hfalse i this]
      simp
    · -- left column: i = nx + nx*k with k < ny - 1
      intro i hi
      obtain ⟨k, hk, hv⟩ := List.mem_range'.mp hi
      have hms : nx * (k + 1) = nx * k + nx := Nat.mul_succ nx k
      have h2 : nx * (k + 1) ≤ nx * (ny - 1) := Nat.mul_le_mul_left nx (by omega)
      have h3 : nx * (ny - 1) + nx = nx * ny := by
        rw [← Nat.mul_succ]
        congr 1
        omega
      have h4 : nx * ny = ny * nx := Nat.mul_comm nx ny
      have : i < ny * nx := by omega
      rw [hfalse i this]
      simp
    · -- bottom row: i < nx*nx <= ny*nx
      intro i hi
      obtain ⟨k, hk, hv⟩ := List.mem_range'.mp hi
      have : i < ny * nx := by
        have h2 : nx * nx ≤ ny * nx := Nat.mul_le_mul_right nx hxy
        omega
      rw [hfalse i this]
      simp
    · -- top row: i < nx <= ny*nx
      intro i hi
      have hmem := List.mem_range.mp hi
      have : i < ny * nx := by
        have h1 : nx ≤ ny * nx := Nat.le_mul_of_pos_left nx hny
        omega
      rw [hfalse i this]
      simp
  refine ⟨hedges, fun posmap dists => ?_⟩
  rw [distance_transform, hedges]
  simp only [List.map_nil, List.nil_append, List.length_nil,
    distance_from_points_no_points]
  refine foldl_fixed fun d i hi => ?_
  rw [if_neg]
  rw [hmask i (List.mem_range.mp hi)]
  omega

/-- Witness for C4 (amended) on the 1x1 grid. -/
theorem c4_witness :
    (1 ≤ 1 ∧ 1 ≤ 1) ∧
      (find_edges 1 1 (List.replicate (1 * 1) 1) = [] ∧
        ∀ posmap dists,
          distance_transform 1 1 (List.replicate (1 * 1) 1) posmap dists = dists) :=
  ⟨⟨le_refl 1, le_refl 1⟩, c4_all_ones_mask 1 1 (le_refl 1) (le_refl 1)⟩

/-! ### Wavefront propagation: basic facts -/

theorem wrap_mem {y o : ℤ} {n : ℕ} (h0 : 0 ≤ y) (h1 : y < n) (h2 : -1 ≤ o) (h3 : o ≤ 1) :
    0 ≤ wrap (y + o) n ∧ wrap (y + o) n < n := by
  rw [wrap]
  split_ifs <;> omega

theorem yoffsL_bound (oi : ℕ) : -1 ≤ yoffsL.getD oi 0 ∧ yoffsL.getD oi 0 ≤ 1 := by
  rcases oi with _ | _ | _ | _ | n <;> simp [yoffsL]

theorem xoffsL_bound (oi : ℕ) : -1 ≤ xoffsL.getD oi 0 ∧ xoffsL.getD oi 0 ≤ 1 := by
  rcases oi with _ | _ | _ | _ | n <;> simp [xoffsL]

theorem flatIdx_nonneg (P : TParams) {p : ℤ × ℤ} (hp : inRangeT P p) :
    0 ≤ flatIdx P.nx p.1 p.2 := by
  obtain ⟨h1, h2, h3, h4⟩ := hp
  exact add_nonneg (mul_nonneg h1 (Int.natCast_nonneg P.nx)) h3

theorem inRangeT_idx_lt (P : TParams) {p : ℤ × ℤ} (hp : inRangeT P p) :
    (flatIdx P.nx p.1 p.2).toNat < P.ny * P.nx := by
  obtain ⟨h1, h2, h3, h4⟩ := hp
  rw [Int.toNat_lt (flatIdx_nonneg P ⟨h1, h2, h3, h4⟩)]
  rw [flatIdx]
  push_cast
  have h5 : (p.1 + 1) * (P.nx : ℤ) ≤ (P.ny : ℤ) * (P.nx : ℤ) :=
    mul_le_mul_of_nonneg_right (by omega) (Int.natCast_nonneg P.nx)
  have h6 : (p.1 + 1) * (P.nx : ℤ) = p.1 * P.nx + P.nx := by ring
  linarith

theorem flatIdx_inj_aux {nx y1 x1 y2 x2 : ℤ} (hx1 : 0 ≤ x1) (hx2 : x1 < nx)
    (hx3 : 0 ≤ x2) (hx4 : x2 < nx) (h : y1 * nx + x1 = y2 * nx + x2) :
    y1 = y2 ∧ x1 = x2 := by
  have hy : y1 = y2 := by
    rcases lt_trichotomy y1 y2 with hlt | heq | hgt
    · exfalso
      have h5 : (y1 + 1) * nx ≤ y2 * nx :=
        mul_le_mul_of_nonneg_right (by omega) (by omega)
      have h6 : (y1 + 1) * nx = y1 * nx + nx := by ring
      linarith
    · exact heq
    · exfalso
      have h5 : (y2 + 1) * nx ≤ y1 * nx :=
        mul_le_mul_of_nonneg_right (by omega) (by omega)
      have h6 : (y2 + 1) * nx = y2 * nx + nx := by ring
      linarith
  subst hy
  exact ⟨rfl, by linarith⟩

theorem flatIdx_toNat_inj (P : TParams) {p q : ℤ × ℤ} (hp : inRangeT P p) (hq : inRangeT P q)
    (hne : p ≠ q) : (flatIdx P.nx p.1 p.2).toNat ≠ (flatIdx P.nx q.1 q.2).toNat := by
  intro heq
  have h1 : flatIdx P.nx p.1 p.2 = flatIdx P.nx q.1 q.2 := by
    have e1 := Int.toNat_of_nonneg (flatIdx_nonneg P hp)
    have e2 := Int.toNat_of_nonneg (flatIdx_nonneg P hq)
    rw [← e1, ← e2, heq]
  obtain ⟨hy, hx⟩ := flatIdx_inj_aux hp.2.2.1 hp.2.2.2 hq.2.2.1 hq.2.2.2 h1
  exact hne (Prod.ext hy hx)

theorem updateT_curr (P : TParams) (st : TState) (y x : ℤ) (v : ℝ) (i : ℤ) :
    (updateT P st y x v i).curr = st.curr := rfl

theorem updateT_next (P : TParams) (st : TState) (y x : ℤ) (v : ℝ) (i : ℤ) :
    (updateT P st y x v i).next = st.next ++ [(y, x)] := rfl

theorem visitPix_curr (P : TParams) (st : TState) (p : ℤ × ℤ) :
    (visitPix P st p).curr = st.curr := by
  rw [visitPix]
  refine foldl_preserve (Q := fun (s : TState) => s.curr = st.curr) (fun s oi hoi hs => ?_) rfl
  dsimp only
  split_ifs <;> simpa

theorem calc_dist_nonneg (P : TParams) (ip y x : ℤ) : 0 ≤ calc_dist P ip y x :=
  dist_vincenty_helper_nonneg _ _ _ _ _ _

theorem calc_dist_le_pi (P : TParams) (ip y x : ℤ) : calc_dist P ip y x ≤ Real.pi :=
  dist_vincenty_helper_le_pi _ _ _ _ _ _

theorem calc_dist_lt_sentinel (P : TParams) (ip y x : ℤ) : calc_dist P ip y x < 1e300 :=
  lt_of_le_of_lt (calc_dist_le_pi P ip y x) pi_lt_sentinel

theorem seedState_succ (P : TParams) (k : ℕ) :
    seedState P (k + 1) = seedStep P (seedState P k) k := by
  rw [seedState, seedState, List.range_succ, List.foldl_append, List.foldl_cons, List.foldl_nil]

theorem seedState_dists_length (P : TParams) (k : ℕ) :
    (seedState P k).dists.length = P.ny * P.nx := by
  rw [seedState]
  refine foldl_preserve (Q := fun (s : TState) => s.dists.length = P.ny * P.nx)
    (fun s a ha hq => ?_) (List.length_replicate _ _)
  rw [seedStep, updateT]
  simpa using hq

/-! ### The dists/domains coupling invariant (C9) -/

theorem updateT_coupled (P : TParams) (st : TState) {y x : ℤ} {v : ℝ} {i : ℤ}
    (hc : coupled P st) (hr : inRangeT P (y, x)) (hi0 : 0 ≤ i) (hi1 : i < (P.npoint : ℤ))
    (hv0 : 0 ≤ v) (hvp : v ≤ Real.pi) :
    coupled P (updateT P st y x v i) := by
  obtain ⟨hld, hlm, hidx, hcur, hnext⟩ := hc
  have ht : (flatIdx P.nx y x).toNat < P.ny * P.nx := inRangeT_idx_lt P hr
  have hvne : v ≠ 1e300 := ne_of_lt (lt_of_le_of_lt hvp pi_lt_sentinel)
  have hine : i ≠ -1 := by omega
  have hdom : ∀ q, q < P.ny * P.nx →
      (updateT P st y x v i).domains.getD q (-1) ≠ -1 →
      ((updateT P st y x v i).domains.getD q (-1) = st.domains.getD q (-1) ∨
        (updateT P st y x v i).domains.getD q (-1) = i) := by
    intro q hq hne
    rw [updateT]
    by_cases hqt : (flatIdx P.nx y x).toNat = q
    · subst hqt
      right
      exact getD_set_self _ _ _ _ (by rw [hlm]; exact ht)
    · left
      exact getD_set_ne _ _ _ hqt
  refine ⟨by simpa [updateT] using hld, by simpa [updateT] using hlm, ?_, ?_, ?_⟩
  · intro q hq
    by_cases hqt : (flatIdx P.nx y x).toNat = q
    · subst hqt
      rw [updateT]
      rw [show ((st.dists.set (flatIdx P.nx y x).toNat v).getD (flatIdx P.nx y x).toNat 0) = v
          from getD_set_self _ _ _ _ (by rw [hld]; exact ht)]
      rw [show ((st.domains.set (flatIdx P.nx y x).toNat i).getD (flatIdx P.nx y x).toNat (-1)) = i
          from getD_set_self _ _ _ _ (by rw [hlm]; exact ht)]
      constructor
      · constructor
        · intro h
          exact absurd h hine
        · intro h
          exact absurd h hvne
      · intro _
        exact ⟨hi0, hi1⟩
    · rw [updateT]
      rw [getD_set_ne _ _ _ hqt, getD_set_ne _ _ _ hqt]
      exact hidx q hq
  · intro p hp
    have hp0 := hcur p (by simpa [updateT] using hp)
    refine ⟨hp0.1, ?_⟩
    by_cases hqt : (flatIdx P.nx y x).toNat = (flatIdx P.nx p.1 p.2).toNat
    · rw [updateT]
      dsimp only
      rw [← hqt, getD_set_self _ _ _ _ (by rw [hlm]; exact ht)]
      exact hine
    · rw [updateT]
      dsimp only
      rw [getD_set_ne _ _ _ hqt]
      exact hp0.2
  · intro p hp
    rw [updateT] at hp
    dsimp only at hp
    rcases List.mem_append.mp hp with hold | hnew
    · have hp0 := hnext p hold
      refine ⟨hp0.1, ?_⟩
      by_cases hqt : (flatIdx P.nx y x).toNat = (flatIdx P.nx p.1 p.2).toNat
      · rw [updateT]
        dsimp only
        rw [← hqt, getD_set_self _ _ _ _ (by rw [hlm]; exact ht)]
        exact hine
      · rw [updateT]
        dsimp only
        rw [getD_set_ne _ _ _ hqt]
        exact hp0.2
    · have hpyx : p = (y, x) := by simpa using hnew
      subst hpyx
      refine ⟨hr, ?_⟩
      rw [updateT]
      dsimp only
      rw [getD_set_self _ _ _ _ (by rw [hlm]; exact ht)]
      exact hine

theorem initState_coupled (P : TParams) : coupled P (initState P) := by
  refine ⟨List.length_replicate _ _, List.length_replicate _ _, ?_, ?_, ?_⟩
  · intro q hq
    rw [initState]
    dsimp only
    rw [getD_replicate _ _ hq, getD_replicate _ _ hq]
    constructor
    · exact ⟨fun _ => rfl, fun _ => rfl⟩
    · intro h
      exact absurd rfl h
  · intro p hp
    exact absurd hp (List.not_mem_nil p)
  · intro p hp
    exact absurd hp (List.not_mem_nil p)

theorem seedState_coupled (P : TParams)
    (hseed : ∀ i < P.npoint, inRangeT P (P.point_y.getD i 0, P.point_x.getD i 0)) :
    ∀ k, k ≤ P.npoint → coupled P (seedState P k) := by
  intro k
  induction k with
  | zero => exact fun _ => initState_coupled P
  | succ k ih =>
      intro hk
      rw [seedState_succ]
      rw [seedStep]
      refine updateT_coupled P _ (ih (by omega)) (hseed k (by omega)) (by omega) (by
        exact_mod_cast Nat.lt_of_lt_of_le (Nat.lt_succ_self k) hk) (calc_dist_nonneg _ _ _ _)
        (calc_dist_le_pi _ _ _ _)

theorem swapT_coupled (P : TParams) (st : TState) (hc : coupled P st) :
    coupled P (swapT st) := by
  obtain ⟨hld, hlm, hidx, hcur, hnext⟩ := hc
  exact ⟨hld, hlm, hidx, hnext, fun p hp => absurd hp (List.not_mem_nil p)⟩

theorem visitPix_coupled (P : TParams) (st : TState) (p : ℤ × ℤ)
    (hc : coupled P st) (hp : p ∈ st.curr) : coupled P (visitPix P st p) := by
  have hpr := hc.2.2.2.1 p hp
  have hpix : (flatIdx P.nx p.1 p.2).toNat < P.ny * P.nx := inRangeT_idx_lt P hpr.1
  have hip := (hc.2.2.1 _ hpix).2 hpr.2
  obtain ⟨hy0, hy1, hx0, hx1⟩ := hpr.1
  rw [visitPix]
  refine foldl_preserve (Q := fun (s : TState) => coupled P s) (fun s oi hoi hs => ?_) hc
  dsimp only
  split_ifs with hlt
  · have hwy := wrap_mem hy0 hy1 (yoffsL_bound oi).1 (yoffsL_bound oi).2
    have hwx := wrap_mem hx0 hx1 (xoffsL_bound oi).1 (xoffsL_bound oi).2
    exact updateT_coupled P s hs ⟨hwy.1, hwy.2, hwx.1, hwx.2⟩ hip.1 hip.2
      (calc_dist_nonneg _ _ _ _) (calc_dist_le_pi _ _ _ _)
  · exact hs

theorem passT_coupled (P : TParams) (st : TState) (hc : coupled P st) :
    coupled P (passT P st) := by
  rw [passT]
  refine swapT_coupled P _ ?_
  have hfold : ∀ (l : List (ℤ × ℤ)), (∀ p ∈ l, p ∈ st.curr) →
      ∀ s : TState, coupled P s → s.curr = st.curr → 
        coupled P (l.foldl (visitPix P) s) ∧ (l.foldl (visitPix P) s).curr = st.curr := by
    intro l
    induction l with
    | nil => exact fun _ s hs hcu => ⟨hs, hcu⟩
    | cons a t ih =>
        intro hmem s hs hcu
        rw [List.foldl_cons]
        refine ih (fun q hq => hmem q (List.mem_cons_of_mem a hq)) _ ?_ ?_
        · exact visitPix_coupled P s a hs (by
            rw [hcu]
            exact hmem a (List.mem_cons_self a t))
        · rw [visitPix_curr, hcu]
  exact (hfold st.curr (fun q hq => hq) st hc rfl).1

/-- Claim C9: throughout every execution with in-bounds seed pixels, the
dists and domains grids stay coupled: `domains[i] = -1` exactly when
`dists[i]` still holds the `1e300` sentinel, every assigned domain is a
valid point index in `[0, npoint)`, and both frontier buffers only ever
hold in-range pixels whose domain is assigned — the invariant holds after
the sentinel fill, after every seeding step, and after every pass. -/
theorem c9_dists_domains_coupled (P : TParams)
    (hseed : ∀ i < P.npoint, inRangeT P (P.point_y.getD i 0, P.point_x.getD i 0)) :
    (∀ k, k ≤ P.npoint → coupled P (seedState P k)) ∧
      ∀ k, coupled P (runState P k) := by
  refine ⟨seedState_coupled P hseed, fun k => ?_⟩
  induction k with
  | zero => exact swapT_coupled P _ (seedState_coupled P hseed P.npoint (le_refl _))
  | succ k ih => exact passT_coupled P _ ih

/-- Witness for C9 on the 1x1 grid with one seed at (0,0). -/
theorem c9_witness :
    (∀ i < exPW.npoint, inRangeT exPW (exPW.point_y.getD i 0, exPW.point_x.getD i 0)) ∧
      ((∀ k, k ≤ exPW.npoint → coupled exPW (seedState exPW k)) ∧
        ∀ k, coupled exPW (runState exPW k)) :=
  have hs : ∀ i < exPW.npoint, inRangeT exPW (exPW.point_y.getD i 0, exPW.point_x.getD i 0) :=
    fun i hi => by
      have h1 : i < 1 := hi
      have h0 : i = 0 := by omega
      subst h0
      exact ⟨by decide, by decide, by decide, by decide⟩
  ⟨hs, c9_dists_domains_coupled exPW hs⟩

/-! ### Monotone relaxation (C3) -/

theorem pix2_eq_flatIdx (P : TParams) (hsq : P.ny = P.nx) (y2 x2 : ℤ) :
    pix2_of P.ny y2 x2 = flatIdx P.nx y2 x2 := by
  rw [pix2_of, flatIdx, hsq]

theorem cond_update_dists_le (P : TParams) (hsq : P.ny = P.nx) (s : TState)
    (ipoint y2 x2 : ℤ) (cand : ℝ) (i : ℕ) :
    (if cand < s.dists.getD (pix2_of P.ny y2 x2).toNat 0 then
        updateT P s y2 x2 cand ipoint
      else s).dists.getD i 0 ≤ s.dists.getD i 0 := by
  split_ifs with hlt
  · rw [updateT]
    dsimp only
    rw [pix2_eq_flatIdx P hsq] at hlt
    by_cases hil : (flatIdx P.nx y2 x2).toNat < s.dists.length
    · by_cases hit : (flatIdx P.nx y2 x2).toNat = i
      · subst hit
        rw [getD_set_self _ _ _ _ hil]
        exact le_of_lt hlt
      · rw [getD_set_ne _ _ _ hit]
    · rw [List.set_eq_of_length_le (by omega)]
  · exact le_refl _

theorem visitPix_dists_le (P : TParams) (hsq : P.ny = P.nx) (st : TState) (p : ℤ × ℤ)
    (i : ℕ) : (visitPix P st p).dists.getD i 0 ≤ st.dists.getD i 0 := by
  rw [visitPix]
  refine foldl_preserve (Q := fun (s : TState) => s.dists.getD i 0 ≤ st.dists.getD i 0)
    (fun s oi hoi hq => ?_) (le_refl _)
  dsimp only
  exact le_trans (cond_update_dists_le P hsq s _ _ _ _ i) hq

theorem passT_dists_le (P : TParams) (hsq : P.ny = P.nx) (st : TState) (i : ℕ) :
    (passT P st).dists.getD i 0 ≤ st.dists.getD i 0 := by
  have key : ∀ (l : List (ℤ × ℤ)) (s : TState), s.dists.getD i 0 ≤ st.dists.getD i 0 →
      (l.foldl (visitPix P) s).dists.getD i 0 ≤ st.dists.getD i 0 := by
    intro l
    induction l with
    | nil => exact fun s hs => hs
    | cons a t ih =>
        intro s hs
        rw [List.foldl_cons]
        exact ih _ (le_trans (visitPix_dists_le P hsq s a i) hs)
  exact key st.curr st (le_refl _)

theorem seed_untouched (P : TParams)
    (hseed : ∀ i < P.npoint, inRangeT P (P.point_y.getD i 0, P.point_x.getD i 0))
    (hdist : ∀ i j, i < P.npoint → j < P.npoint → i ≠ j →
      (P.point_y.getD i 0, P.point_x.getD i 0) ≠ (P.point_y.getD j 0, P.point_x.getD j 0)) :
    ∀ k m, k ≤ m → m < P.npoint →
      (seedState P k).dists.getD (seedIdx P m) 0 = 1e300 := by
  intro k
  induction k with
  | zero =>
      intro m hkm hm
      show (initState P).dists.getD (seedIdx P m) 0 = 1e300
      rw [initState]
      exact getD_replicate _ _ (inRangeT_idx_lt P (hseed m hm))
  | succ k ih =>
      intro m hkm hm
      rw [seedState_succ, seedStep, updateT]
      dsimp only
      rw [seedIdx]
      rw [getD_set_ne _ _ _ (flatIdx_toNat_inj P (hseed k (by omega)) (hseed m hm)
        (hdist k m (by omega) hm (by omega)))]
      rw [← seedIdx]
      exact ih m (by omega) hm

/-- Claim C3 (amended): for a square grid (`ny = nx`, so that the
comparison index `y2*ny+x2` of line 215 coincides with the write index
`y2*nx+x2`) and pairwise-distinct in-bounds seed pixels, the distance
grid is pointwise non-increasing across every seeding step and across
every propagation pass, and each seeding step strictly lowers its own
seed pixel from the sentinel. -/
theorem c3_dists_never_increase (P : TParams) (hsq : P.ny = P.nx)
    (hseed : ∀ i < P.npoint, inRangeT P (P.point_y.getD i 0, P.point_x.getD i 0))
    (hdist : ∀ i j, i < P.npoint → j < P.npoint → i ≠ j →
      (P.point_y.getD i 0, P.point_x.getD i 0) ≠ (P.point_y.getD j 0, P.point_x.getD j 0)) :
    (∀ j < P.npoint,
      (∀ i, (seedState P (j + 1)).dists.getD i 0 ≤ (seedState P j).dists.getD i 0) ∧
        (seedState P (j + 1)).dists.getD (seedIdx P j) 0 <
          (seedState P j).dists.getD (seedIdx P j) 0) ∧
      ∀ k i, (runState P (k + 1)).dists.getD i 0 ≤ (runState P k).dists.getD i 0 := by
  constructor
  · intro j hj
    have huntouched : (seedState P j).dists.getD (seedIdx P j) 0 = 1e300 :=
      seed_untouched P hseed hdist j j (le_refl j) hj
    have hlen : (seedState P j).dists.length = P.ny * P.nx := seedState_dists_length P j
    have hidx : seedIdx P j < P.ny * P.nx := inRangeT_idx_lt P (hseed j hj)
    constructor
    · intro i
      rw [seedState_succ, seedStep, updateT]
      dsimp only
      by_cases hit : (flatIdx P.nx (P.point_y.getD j 0) (P.point_x.getD j 0)).toNat = i
      · subst hit
        rw [getD_set_self _ _ _ _ (by rw [hlen]; exact hidx)]
        rw [← seedIdx, huntouched]
        exact le_of_lt (calc_dist_lt_sentinel _ _ _ _)
      · rw [getD_set_ne _ _ _ hit]
    · rw [seedState_succ, seedStep, updateT]
      dsimp only
      rw [seedIdx]
      rw [getD_set_self _ _ _ _ (by rw [hlen]; exact hidx)]
      rw [← seedIdx, huntouched]
      exact calc_dist_lt_sentinel _ _ _ _
  · intro k i
    exact passT_dists_le P hsq (runState P k) i

/-- Witness for C3 (amended) on the 1x1 grid with one seed. -/
theorem c3_witness :
    exPW.ny = exPW.nx ∧
      ((∀ j < exPW.npoint,
        (∀ i, (seedState exPW (j + 1)).dists.getD i 0 ≤ (seedState exPW j).dists.getD i 0) ∧
          (seedState exPW (j + 1)).dists.getD (seedIdx exPW j) 0 <
            (seedState exPW j).dists.getD (seedIdx exPW j) 0) ∧
        ∀ k i, (runState exPW (k + 1)).dists.getD i 0 ≤ (runState exPW k).dists.getD i 0) :=
  have hs : ∀ i < exPW.npoint, inRangeT exPW (exPW.point_y.getD i 0, exPW.point_x.getD i 0) :=
    fun i hi => by
      have h1 : i < 1 := hi
      have h0 : i = 0 := by omega
      subst h0
      exact ⟨by decide, by decide, by decide, by decide⟩
  have hd : ∀ i j, i < exPW.npoint → j < exPW.npoint → i ≠ j →
      (exPW.point_y.getD i 0, exPW.point_x.getD i 0) ≠
        (exPW.point_y.getD j 0, exPW.point_x.getD j 0) :=
    fun i j hi hj hne => by
      have hi1 : i < 1 := hi
      have hj1 : j < 1 := hj
      exact absurd (show i = j by omega) hne
  ⟨rfl, c3_dists_never_increase exPW rfl hs hd⟩

/-- Claim C3, as stated: refuted.  With two reference points seeded at
the same pixel of a 1x1 grid, the first seeding write stores distance 0
and the second unconditionally overwrites it with π, so `dists[0]`
strictly increases during seeding. -/
theorem c3_counterexample :
    (seedState exP3 1).dists.getD 0 0 < (seedState exP3 2).dists.getD 0 0 := by
  have h1 : (seedState exP3 1).dists = [calc_dist exP3 0 0 0] := rfl
  have h2 : (seedState exP3 2).dists = [calc_dist exP3 1 0 0] := rfl
  have hv1 : calc_dist exP3 0 0 0 = 0 := by
    show dist_vincenty_helper 0 (Real.cos 0) (Real.sin 0) 0 (Real.cos 0) (Real.sin 0) = 0
    rw [dist_vincenty_helper_eq_zero_iff]
    exact ⟨rfl, rfl, rfl⟩
  have hv2 : calc_dist exP3 1 0 0 = Real.pi := by
    show dist_vincenty_helper Real.pi (Real.cos 0) (Real.sin 0) 0 (Real.cos 0) (Real.sin 0) =
      Real.pi
    rw [dist_vincenty_helper_eq]
    rw [show (0 : ℝ) - Real.pi = -Real.pi from by ring]
    rw [Real.sin_neg, Real.sin_pi, Real.cos_neg, Real.cos_pi, Real.sin_zero, Real.cos_zero]
    norm_num
    rw [atan2]
    rw [show (⟨-1, 0⟩ : ℂ) = (-1 : ℂ) from Complex.ext (by simp) (by simp)]
    exact Complex.arg_neg_one
  rw [h1, h2, hv1, hv2]
  simpa using Real.pi_pos

/-! ### The wrong comparison index `pix2 = y2*ny+x2` (C6, C8) -/

/-- Claim C6: code-bug evidence.  On the 3x2 grid with one point seeded
at (0,0), the first pass examines the wrapped neighbor (2,0) (offset
index 2, `y2 = -1` wrapping to `2`), and the comparison of line 215
reads `dists[pix2]` at `pix2 = y2*ny+x2 = 6` while the `dists` buffer
has only `ny*nx = 6` entries — an out-of-bounds read (the intended index
`y2*nx+x2 = 4` is in range), so the run is undefined rather than a
well-defined terminating loop. -/
theorem c6_comparison_index_out_of_bounds :
    (runState exP6 0).curr = [(0, 0)] ∧
      wrap (0 + yoffsL.getD 2 0) exP6.ny = 2 ∧
      (pix2_of exP6.ny 2 0).toNat = 6 ∧
      (runState exP6 0).dists.length = 6 := by
  refine ⟨rfl, by decide, by decide, ?_⟩
  show (seedState exP6 exP6.npoint).dists.length = 6
  rw [seedState_dists_length]
  rfl

/-- Claim C8: code-bug evidence.  On the 5x4 grid with one point seeded
at (4,0), the first pass does wrap the `x2 = -1` neighbor to column
`nx-1 = 3` in one hop, but the comparison of line 215 then reads
`dists[pix2]` at `pix2 = y2*ny+x2 = 4*5+3 = 23` in the 20-entry buffer —
out of bounds (the intended index `y2*nx+x2 = 19` is in range), so the
claimed first-pass assignment is not what the code performs there. -/
theorem c8_wrap_hits_wrong_index :
    (runState exP8 0).curr = [(4, 0)] ∧
      wrap (0 + xoffsL.getD 0 0) exP8.nx = 3 ∧
      (pix2_of exP8.ny 4 3).toNat = 23 ∧
      (runState exP8 0).dists.length = 20 := by
  refine ⟨rfl, by decide, by decide, ?_⟩
  show (seedState exP8 exP8.npoint).dists.length = 20
  rw [seedState_dists_length]
  rfl

end DistancesCore
